import Mathlib

/-!
Shallow embedding of the suggestion pipeline of `src/NLP/trial.py`
(Hindi predictive-typing demo).  Python strings are modelled as
`List Char` (one element per code point, matching Python's `len` and
slicing).  Python's `str.strip()` is modelled over the ASCII whitespace
characters that occur in this domain; `str.lower()` lowers ASCII
letters and leaves every other code point (in particular all of
Devanagari, which is caseless) unchanged.  The generative model
(`generator`) is an external collaborator and is modelled as an
explicit parameter `Option Model`, where a `Model` maps a context
string to either a list of generated continuations (each one
"context + generated tail", as the pipeline assumes) or an error
(`Except.error`), mirroring a raised exception in the generation call.
-/

namespace Trial

/-- Whitespace test used to model Python's `str.strip()` / `str.split()`. -/
def isWS (c : Char) : Bool :=
  c = ' ' || c = '\t' || c = '\n' || c = '\r'

/-- Drop the longest suffix whose characters all satisfy `p`. -/
def rdrop (p : Char → Bool) (l : List Char) : List Char :=
  (l.reverse.dropWhile p).reverse

/-- Python `text.strip()`: remove leading and trailing whitespace. -/
def pyStrip (l : List Char) : List Char :=
  rdrop isWS (l.dropWhile isWS)

/-- Accumulator-based worker for `pySplit`. -/
def splitAux : List Char → List Char → List (List Char)
  | [], acc => if acc = [] then [] else [acc.reverse]
  | c :: cs, acc =>
    if isWS c then
      (if acc = [] then splitAux cs [] else acc.reverse :: splitAux cs [])
    else
      splitAux cs (c :: acc)

/-- Python `text.split()`: split on whitespace runs, discarding empties. -/
def pySplit (l : List Char) : List (List Char) :=
  splitAux l []

/-- Python `str.lower()` restricted to ASCII case mapping (Devanagari is caseless). -/
def pyLower (s : List Char) : List Char :=
  s.map (fun c => if 'A' ≤ c ∧ c ≤ 'Z' then Char.ofNat (c.toNat + 32) else c)

/-- Character lies in the Devanagari Unicode block U+0900–U+097F
(the block also contains digits and punctuation such as the danda `।`). -/
def isDev (c : Char) : Bool :=
  0x900 ≤ c.toNat ∧ c.toNat ≤ 0x97F

/-- ASCII Latin letter. -/
def isLatin (c : Char) : Bool :=
  ('a' ≤ c ∧ c ≤ 'z') ∨ ('A' ≤ c ∧ c ≤ 'Z')

/-- ASCII digit. -/
def isAsciiDigit (c : Char) : Bool :=
  '0' ≤ c ∧ c ≤ '9'

/-- Characters kept by the leading strip class of `clean_suggestion`:
the complement of `[^ऀ-ॿa-zA-Z0-9]`. -/
def keepLead (c : Char) : Bool :=
  isDev c || isLatin c || isAsciiDigit c

/-- Characters kept by the trailing strip class of `clean_suggestion`:
the complement of `[^ऀ-ॿa-zA-Z0-9।]` (the explicit danda is
redundant, as `।` = U+0964 already lies in the Devanagari block). -/
def keepTrail (c : Char) : Bool :=
  keepLead c || c = '।'

/-- The `re.sub` of `clean_suggestion`: remove the maximal run of
non-kept characters at the start, and the maximal run at the end. -/
def stripPunct (l : List Char) : List Char :=
  rdrop (fun c => !keepTrail c) (l.dropWhile (fun c => !keepLead c))

/-- The `re.search(r'[ऀ-ॿa-zA-Z]', ...)` letter test: at
least one character in the Devanagari block or an ASCII Latin letter. -/
def hasLetter (l : List Char) : Bool :=
  l.any (fun c => isDev c || isLatin c)

/-- Constant `N_SUGGESTIONS` of the source. -/
def N_SUGGESTIONS : Nat := 4

/-- Embedding of `clean_suggestion` (trial.py lines 158–177): strip
whitespace, strip leading/trailing non-kept characters, then require at
least one letter and length at least two. -/
def clean_suggestion (text : List Char) : List Char :=
  if text = [] then []
  else if ¬ hasLetter (stripPunct (pyStrip text)) then []
  else if (stripPunct (pyStrip text)).length < 2 then []
  else stripPunct (pyStrip text)

/-- One step of the suggestion-collecting loop of `extract_suggestions`:
append the cleaned word when nonempty and not already collected. -/
def extractStep (acc : List (List Char)) (w : List Char) : List (List Char) :=
  if clean_suggestion w ≠ [] ∧ clean_suggestion w ∉ acc then acc ++ [clean_suggestion w]
  else acc

/-- Embedding of `extract_suggestions` (trial.py lines 179–198). -/
def extract_suggestions (generated_text original_text : List Char) : List (List Char) :=
  if generated_text = [] ∨ generated_text.length ≤ original_text.length then []
  else if pyStrip (generated_text.drop original_text.length) = [] then []
  else
    (((pySplit (pyStrip (generated_text.drop original_text.length))).take 6).foldl
      extractStep []).take N_SUGGESTIONS

/-- The external generative model: maps a context string to the list of
generated continuations (`generated_text` of each result), or raises. -/
def Model : Type :=
  List Char → Except Unit (List (List Char))

/-- Context windowing of `generate_predictions` (trial.py lines 207–208):
`words = text.strip().split()`, then the last six words joined by single
spaces if more than six, else the whole stripped text. -/
def joinSpace : List (List Char) → List Char
  | [] => []
  | [w] => w
  | w :: ws => w ++ ' ' :: joinSpace ws

/-- Python `l[-n:]` for a list known to have more than `n` elements. -/
def lastN (n : Nat) (l : List (List Char)) : List (List Char) :=
  l.drop (l.length - n)

/-- The context string `generate_predictions` sends to the model. -/
def context_of (text : List Char) : List Char :=
  if 6 < (pySplit (pyStrip text)).length then joinSpace (lastN 6 (pySplit (pyStrip text)))
  else pyStrip text

/-- The intermediate candidate list `all_suggestions` of
`generate_predictions` (trial.py lines 222–226): per-continuation
extraction results, concatenated in order. -/
def all_suggestions_of (results : List (List Char)) (context : List Char) : List (List Char) :=
  (results.map (fun r => extract_suggestions r context)).flatten

/-- One step of the final dedup/filter loop of `generate_predictions`
(trial.py lines 229–239); the first component is `unique_suggestions`,
the second is the `seen` set of lowered strings. -/
def filterStep (text : List Char) (acc : List (List Char) × List (List Char))
    (s : List Char) : List (List Char) × List (List Char) :=
  if s ≠ [] ∧ pyLower s ∉ acc.2 ∧ ¬ s <:+: text ∧ 2 ≤ s.length then
    (acc.1 ++ [s], acc.2 ++ [pyLower s])
  else
    acc

/-- The final filter of `generate_predictions`: run `filterStep` over the
intermediate list and keep the first `N_SUGGESTIONS` survivors. -/
def finalFilter (text : List Char) (all : List (List Char)) : List (List Char) :=
  (all.foldl (filterStep text) ([], [])).1.take N_SUGGESTIONS

/-- Embedding of `generate_predictions` (trial.py lines 200–245).  The
second component counts how many times a generation failure was surfaced
to the user (`st.error` calls); the `try/except` of the source catches a
model exception, reports it once and yields the empty list. -/
def generate_predictions (gen : Option Model) (text : List Char) :
    List (List Char) × Nat :=
  match gen with
  | none => ([], 0)
  | some m =>
    if text = [] then ([], 0)
    else
      match m (context_of text) with
      | .error _ => ([], 1)
      | .ok results => (finalFilter text (all_suggestions_of results (context_of text)), 0)

/-- Embedding of `should_predict` (trial.py lines 247–256). -/
def terminators : List Char := ['।', '.', '!', '?']

/-- Whether the stripped text ends with a sentence terminator
(`text.strip().endswith(('।', '.', '!', '?'))`). -/
def endsWithTerminator (s : List Char) : Bool :=
  match s.getLast? with
  | some c => terminators.contains c
  | none => false

/-- The `should_predict` gate of the source. -/
def should_predict (text : List Char) : Bool :=
  if text = [] ∨ (pyStrip text).length < 1 then false
  else if endsWithTerminator (pyStrip text) then false
  else true

/-- The pipeline entry point as wired at trial.py line 318:
`generate_predictions` runs only when `should_predict` holds and a
model handle is present. -/
def predict (gen : Option Model) (text : List Char) : List (List Char) × Nat :=
  if should_predict text = true ∧ gen.isSome then generate_predictions gen text
  else ([], 0)

/-- Embedding of the suggestion-acceptance handler (trial.py lines
345–353): the buffer is stripped first, then the handler tests whether
the (already stripped) text ends with a space. -/
def accept (b s : List Char) : List Char :=
  if pyStrip b = [] then s
  else if (pyStrip b).getLast? = some ' ' then pyStrip b ++ s
  else pyStrip b ++ ' ' :: s

/-- Whether a buffer ends with a whitespace character (used by the
spec's reading of the acceptance protocol). -/
def endsWithWS (b : List Char) : Bool :=
  match b.getLast? with
  | some c => isWS c
  | none => false

/-- Acceptance function as the spec words it: `s` when `b` trimmed is
empty, `b + s` when `b` ends with whitespace, else `b.trim() + " " + s`. -/
def specAccept (b s : List Char) : List Char :=
  if pyStrip b = [] then s
  else if endsWithWS b then b ++ s
  else pyStrip b ++ ' ' :: s

/-- Context windowing as the spec words it: split the buffer into
whitespace tokens; last six joined by single spaces when more than six
exist, else the full trimmed buffer. -/
def specContext (b : List Char) : List Char :=
  if 6 < (pySplit b).length then joinSpace (lastN 6 (pySplit b)) else pyStrip b

/-- Cleaned tokens of one continuation as the spec words steps 3–4:
the remainder strictly after the context prefix, split into whitespace
tokens, first six, each cleaned, invalid ones discarded. -/
def specCleanedTokens (r context : List Char) : List (List Char) :=
  (((pySplit (r.drop context.length)).take 6).map clean_suggestion).filter (· ≠ [])

/-- First-appearance case-insensitive deduplication. -/
def dedupCI (l : List (List Char)) : List (List Char) :=
  (l.foldl
    (fun acc s => if pyLower s ∈ acc.2 then acc else (acc.1 ++ [s], acc.2 ++ [pyLower s]))
    (([], []) : List (List Char) × List (List Char))).1

/-- Aggregation as the spec words step 5: collect cleaned tokens from
all continuations in order of first appearance, keeping a token only if
not already seen case-insensitively within the aggregation pass. -/
def specAggregate (results : List (List Char)) (context : List Char) : List (List Char) :=
  dedupCI ((results.map (fun r => specCleanedTokens r context)).flatten)

/-- The intermediate candidate list as the code actually builds it
(amended reading of the aggregation step): the per-continuation token
lists concatenated in continuation order, where within one continuation
a cleaned token is kept only if nonempty and not already exactly present
among that continuation's kept tokens, at most four per continuation. -/
def specIntermediate (results : List (List Char)) (context : List Char) : List (List Char) :=
  (results.map (fun r =>
    ((((pySplit (r.drop context.length)).take 6).foldl
      (fun acc w =>
        if clean_suggestion w ≠ [] ∧ clean_suggestion w ∉ acc then acc ++ [clean_suggestion w]
        else acc) []).take 4))).flatten

/-- Characters the claim counts as digits: ASCII digits and the
Devanagari digits U+0966–U+096F. -/
def isClaimDigit (c : Char) : Bool :=
  isAsciiDigit c || (0x966 ≤ c.toNat ∧ c.toNat ≤ 0x96F)

/-! Helper lemmas about the string primitives. -/

theorem splitAux_allWS :
    ∀ (w : List Char), (∀ c ∈ w, isWS c = true) →
      ∀ acc, splitAux w acc = if acc = [] then [] else [acc.reverse] := by
  intro w
  induction w with
  | nil => intro _ acc; rfl
  | cons c cs ih =>
    intro hw acc
    have hc : isWS c = true := hw c (List.mem_cons_self c cs)
    have hcs : ∀ x ∈ cs, isWS x = true := fun x hx => hw x (List.mem_cons_of_mem c hx)
    have h0 : splitAux cs [] = [] := by simpa using ih hcs []
    by_cases ha : acc = [] <;> simp [splitAux, hc, h0, ha]

theorem splitAux_append_allWS :
    ∀ (l w : List Char), (∀ c ∈ w, isWS c = true) →
      ∀ acc, splitAux (l ++ w) acc = splitAux l acc := by
  intro l
  induction l with
  | nil =>
    intro w hw acc
    simp only [List.nil_append]
    rw [splitAux_allWS w hw acc]
    rfl
  | cons c cs ih =>
    intro w hw acc
    simp only [List.cons_append]
    by_cases hc : isWS c = true
    · by_cases ha : acc = [] <;> simp [splitAux, hc, ha, ih w hw]
    · simp [splitAux, hc, ih w hw]

theorem splitAux_allWS_append :
    ∀ (w : List Char), (∀ c ∈ w, isWS c = true) →
      ∀ l, splitAux (w ++ l) [] = splitAux l [] := by
  intro w
  induction w with
  | nil => intro _ l; rfl
  | cons c cs ih =>
    intro hw l
    have hc : isWS c = true := hw c (List.mem_cons_self c cs)
    have hcs : ∀ x ∈ cs, isWS x = true := fun x hx => hw x (List.mem_cons_of_mem c hx)
    simp only [List.cons_append]
    simp [splitAux, hc]
    exact ih hcs l

theorem pySplit_pyStrip (t : List Char) : pySplit (pyStrip t) = pySplit t := by
  unfold pySplit pyStrip rdrop
  have ht : t.takeWhile isWS ++ t.dropWhile isWS = t :=
    List.takeWhile_append_dropWhile isWS t
  have h1 : splitAux t [] = splitAux (t.dropWhile isWS) [] := by
    conv_lhs => rw [← ht]
    exact splitAux_allWS_append _ (fun c hc => List.mem_takeWhile_imp hc) _
  have hu2 : t.dropWhile isWS =
      ((t.dropWhile isWS).reverse.dropWhile isWS).reverse ++
        ((t.dropWhile isWS).reverse.takeWhile isWS).reverse := by
    conv_lhs =>
      rw [← List.reverse_reverse (t.dropWhile isWS),
        ← List.takeWhile_append_dropWhile isWS (t.dropWhile isWS).reverse]
    rw [List.reverse_append]
  have h2 : splitAux (t.dropWhile isWS) [] =
      splitAux (((t.dropWhile isWS).reverse.dropWhile isWS).reverse) [] := by
    conv_lhs => rw [hu2]
    exact splitAux_append_allWS _ _
      (fun c hc => List.mem_takeWhile_imp (List.mem_reverse.mp hc)) _
  rw [h1, h2]

theorem dropWhile_head_false (p : Char → Bool) :
    ∀ (l : List Char) (c : Char) (rest : List Char),
      l.dropWhile p = c :: rest → p c = false := by
  intro l
  induction l with
  | nil => intro c rest h; simp [List.dropWhile] at h
  | cons a as ih =>
    intro c rest h
    rw [List.dropWhile_cons] at h
    by_cases hp : p a = true
    · rw [if_pos hp] at h
      exact ih c rest h
    · rw [if_neg hp] at h
      injection h with h1 _
      subst h1
      simpa using hp

theorem dropWhile_cons_self (p : Char → Bool) (c : Char) (l : List Char)
    (h : p c = false) : (c :: l).dropWhile p = c :: l := by
  rw [List.dropWhile_cons, h]
  simp

theorem rdrop_pref (p : Char → Bool) (l : List Char) : rdrop p l <+: l := by
  apply List.reverse_suffix.mp
  rw [rdrop, List.reverse_reverse]
  exact List.dropWhile_suffix p

theorem head_eq_of_pref {l₁ l₂ : List Char} (h : l₁ <+: l₂) (hne : l₁ ≠ []) :
    l₂.head? = l₁.head? := by
  obtain ⟨t, ht⟩ := h
  cases l₁ with
  | nil => exact absurd rfl hne
  | cons a as => rw [← ht]; rfl

theorem rdrop_getLast_false (p : Char → Bool) (l : List Char) (h : rdrop p l ≠ []) :
    ∃ d, (rdrop p l).getLast? = some d ∧ p d = false := by
  have hrev : (rdrop p l).reverse = l.reverse.dropWhile p := by
    rw [rdrop, List.reverse_reverse]
  have hne : (rdrop p l).reverse ≠ [] := by
    intro hx
    exact h (List.reverse_eq_nil_iff.mp hx)
  obtain ⟨d, rest, hd⟩ := List.exists_cons_of_ne_nil hne
  refine ⟨d, ?_, ?_⟩
  · rw [← List.head?_reverse, hd]
    rfl
  · exact dropWhile_head_false p l.reverse d rest (by rw [← hrev]; exact hd)

theorem rdrop_head_false (p q : Char → Bool) (l : List Char) (c : Char)
    (rest : List Char) (h : rdrop p (l.dropWhile q) = c :: rest) : q c = false := by
  have hpref : rdrop p (l.dropWhile q) <+: l.dropWhile q := rdrop_pref p _
  have hh : (l.dropWhile q).head? = some c := by
    rw [head_eq_of_pref hpref (by rw [h]; exact List.cons_ne_nil c rest), h]
    rfl
  have hne2 : l.dropWhile q ≠ [] := by
    intro hx
    rw [hx] at hh
    exact Option.noConfusion hh
  obtain ⟨c', rest', hd⟩ := List.exists_cons_of_ne_nil hne2
  have hcc : c' = c := by rw [hd] at hh; exact (Option.some.injEq _ _).mp hh
  rw [← hcc]
  exact dropWhile_head_false q l c' rest' hd

theorem pyStrip_getLast_not_ws (b : List Char) (h : pyStrip b ≠ []) :
    ∃ d, (pyStrip b).getLast? = some d ∧ isWS d = false :=
  rdrop_getLast_false isWS (b.dropWhile isWS) h

theorem pyStrip_eq_nil (b : List Char) (hb : ∀ c ∈ b, isWS c = true) :
    pyStrip b = [] := by
  have h1 : b.dropWhile isWS = [] := List.dropWhile_eq_nil_iff.mpr hb
  rw [pyStrip, h1]
  rfl

theorem keepLead_not_ws (c : Char) (h : keepLead c = true) : isWS c = false := by
  cases hw : isWS c
  · rfl
  · exfalso
    simp [isWS] at hw
    rcases hw with ((h1 | h1) | h1) | h1 <;> subst h1 <;> exact absurd h (by decide)

theorem keepTrail_not_ws (c : Char) (h : keepTrail c = true) : isWS c = false := by
  have h' := h
  simp [keepTrail] at h'
  rcases h' with h1 | h1
  · exact keepLead_not_ws c h1
  · subst h1; decide

/-! Invariants of the final dedup/filter fold of `generate_predictions`. -/

theorem filterFold_mem (text : List Char) :
    ∀ (all : List (List Char)) (uniq seen : List (List Char)) (x : List Char),
      x ∈ (all.foldl (filterStep text) (uniq, seen)).1 →
      x ∈ uniq ∨ (x ∈ all ∧ 2 ≤ x.length ∧ ¬ x <:+: text) := by
  intro all
  induction all with
  | nil => intro uniq seen x hx; exact Or.inl hx
  | cons a rest ih =>
    intro uniq seen x hx
    rw [List.foldl_cons] at hx
    by_cases hc : a ≠ [] ∧ pyLower a ∉ seen ∧ ¬ a <:+: text ∧ 2 ≤ a.length
    · have he : filterStep text (uniq, seen) a = (uniq ++ [a], seen ++ [pyLower a]) := by
        rw [filterStep, if_pos hc]
      rw [he] at hx
      rcases ih (uniq ++ [a]) (seen ++ [pyLower a]) x hx with h1 | h1
      · rcases List.mem_append.mp h1 with h2 | h2
        · exact Or.inl h2
        · have hxa : x = a := by simpa using h2
          subst hxa
          exact Or.inr ⟨List.mem_cons_self x rest, hc.2.2.2, hc.2.2.1⟩
      · exact Or.inr ⟨List.mem_cons_of_mem a h1.1, h1.2⟩
    · have he : filterStep text (uniq, seen) a = (uniq, seen) := by
        rw [filterStep, if_neg hc]
      rw [he] at hx
      rcases ih uniq seen x hx with h1 | h1
      · exact Or.inl h1
      · exact Or.inr ⟨List.mem_cons_of_mem a h1.1, h1.2⟩

theorem filterFold_pairwise (text : List Char) :
    ∀ (all uniq seen : List (List Char)),
      uniq.Pairwise (fun a b => pyLower a ≠ pyLower b) →
      (∀ u ∈ uniq, pyLower u ∈ seen) →
      (all.foldl (filterStep text) (uniq, seen)).1.Pairwise
        (fun a b => pyLower a ≠ pyLower b) := by
  intro all
  induction all with
  | nil => intro uniq seen h1 _; exact h1
  | cons a rest ih =>
    intro uniq seen h1 h2
    rw [List.foldl_cons]
    by_cases hc : a ≠ [] ∧ pyLower a ∉ seen ∧ ¬ a <:+: text ∧ 2 ≤ a.length
    · have he : filterStep text (uniq, seen) a = (uniq ++ [a], seen ++ [pyLower a]) := by
        rw [filterStep, if_pos hc]
      rw [he]
      apply ih
      · rw [List.pairwise_append]
        refine ⟨h1, by simp, ?_⟩
        intro u hu b hb
        have hb' : b = a := by simpa using hb
        subst hb'
        intro hEq
        exact hc.2.1 (hEq ▸ h2 u hu)
      · intro u hu
        rcases List.mem_append.mp hu with h3 | h3
        · exact List.mem_append.mpr (Or.inl (h2 u h3))
        · have hua : u = a := by simpa using h3
          subst hua
          exact List.mem_append.mpr (Or.inr (by simp))
    · have he : filterStep text (uniq, seen) a = (uniq, seen) := by
        rw [filterStep, if_neg hc]
      rw [he]
      exact ih uniq seen h1 h2

/-! Facts about `clean_suggestion` and the extraction fold. -/

theorem clean_suggestion_spec (w : List Char) (h : clean_suggestion w ≠ []) :
    clean_suggestion w = stripPunct (pyStrip w) ∧
    hasLetter (stripPunct (pyStrip w)) = true ∧
    2 ≤ (stripPunct (pyStrip w)).length := by
  unfold clean_suggestion at h
  by_cases h0 : w = []
  · rw [if_pos h0] at h; exact absurd rfl h
  · rw [if_neg h0] at h
    by_cases hL : hasLetter (stripPunct (pyStrip w)) = true
    · by_cases hlen : (stripPunct (pyStrip w)).length < 2
      · rw [if_neg (by simp [hL]), if_pos hlen] at h
        exact absurd rfl h
      · have he : clean_suggestion w = stripPunct (pyStrip w) := by
          unfold clean_suggestion
          rw [if_neg h0, if_neg (by simp [hL]), if_neg hlen]
        exact ⟨he, hL, Nat.le_of_not_lt hlen⟩
    · rw [if_pos (by simpa using hL)] at h
      exact absurd rfl h

theorem clean_suggestion_valid (w : List Char) (h : clean_suggestion w ≠ []) :
    hasLetter (clean_suggestion w) = true ∧ 2 ≤ (clean_suggestion w).length := by
  obtain ⟨he, hL, hlen⟩ := clean_suggestion_spec w h
  rw [he]
  exact ⟨hL, hlen⟩

theorem extractFold_mem :
    ∀ (ws : List (List Char)) (acc : List (List Char)) (x : List Char),
      x ∈ ws.foldl extractStep acc →
      x ∈ acc ∨ (hasLetter x = true ∧ 2 ≤ x.length) := by
  intro ws
  induction ws with
  | nil => intro acc x hx; exact Or.inl hx
  | cons w rest ih =>
    intro acc x hx
    rw [List.foldl_cons] at hx
    by_cases hc : clean_suggestion w ≠ [] ∧ clean_suggestion w ∉ acc
    · have he : extractStep acc w = acc ++ [clean_suggestion w] := by
        rw [extractStep, if_pos hc]
      rw [he] at hx
      rcases ih (acc ++ [clean_suggestion w]) x hx with h1 | h1
      · rcases List.mem_append.mp h1 with h2 | h2
        · exact Or.inl h2
        · have hxc : x = clean_suggestion w := by simpa using h2
          subst hxc
          exact Or.inr (clean_suggestion_valid w hc.1)
      · exact Or.inr h1
    · have he : extractStep acc w = acc := by rw [extractStep, if_neg hc]
      rw [he] at hx
      exact ih acc x hx

theorem extract_suggestions_mem (g o x : List Char)
    (hx : x ∈ extract_suggestions g o) : hasLetter x = true ∧ 2 ≤ x.length := by
  unfold extract_suggestions at hx
  by_cases h1 : g = [] ∨ g.length ≤ o.length
  · rw [if_pos h1] at hx; exact absurd hx (List.not_mem_nil x)
  · rw [if_neg h1] at hx
    by_cases h2 : pyStrip (g.drop o.length) = []
    · rw [if_pos h2] at hx; exact absurd hx (List.not_mem_nil x)
    · rw [if_neg h2] at hx
      have hx' := List.take_subset _ _ hx
      rcases extractFold_mem _ [] x hx' with h3 | h3
      · exact absurd h3 (List.not_mem_nil x)
      · exact h3

/-- Every member of the suggestion list returned by `predict` has length
at least two, is not an infix of the buffer, and passes the source's
letter test (a character in the Devanagari block or a Latin letter). -/
theorem predict_mem_props (gen : Option Model) (text x : List Char)
    (hx : x ∈ (predict gen text).1) :
    2 ≤ x.length ∧ ¬ x <:+: text ∧ hasLetter x = true := by
  unfold predict at hx
  by_cases hp : should_predict text = true ∧ gen.isSome
  · rw [if_pos hp] at hx
    cases gen with
    | none => simp [generate_predictions] at hx
    | some m =>
      simp only [generate_predictions] at hx
      by_cases ht : text = []
      · rw [if_pos ht] at hx
        exact absurd hx (List.not_mem_nil x)
      · rw [if_neg ht] at hx
        cases hm : m (context_of text) with
        | error e =>
          rw [hm] at hx
          exact absurd hx (List.not_mem_nil x)
        | ok results =>
          rw [hm] at hx
          simp only [finalFilter] at hx
          have hx2 := List.take_subset _ _ hx
          rcases filterFold_mem text _ [] [] x hx2 with h | h
          · exact absurd h (List.not_mem_nil x)
          · obtain ⟨hall, hlen, hinf⟩ := h
            obtain ⟨l, hl, hxl⟩ := List.mem_flatten.mp hall
            obtain ⟨r, _, hrl⟩ := List.mem_map.mp hl
            rw [← hrl] at hxl
            exact ⟨hlen, hinf, (extract_suggestions_mem _ _ x hxl).1⟩
  · rw [if_neg hp] at hx
    exact absurd hx (List.not_mem_nil x)

/-- Claim C1: for every model handle and buffer, `predict` returns at
most four suggestions, and no two of them agree after lowering (the
source's case-insensitive comparison via `str.lower()`). -/
theorem predict_bounded_ci_distinct (gen : Option Model) (text : List Char) :
    (predict gen text).1.length ≤ 4 ∧
    (predict gen text).1.Pairwise (fun a b => pyLower a ≠ pyLower b) := by
  unfold predict
  by_cases hp : should_predict text = true ∧ gen.isSome
  · rw [if_pos hp]
    cases gen with
    | none => simp [generate_predictions]
    | some m =>
      simp only [generate_predictions]
      by_cases ht : text = []
      · rw [if_pos ht]
        exact ⟨by simp, by simp⟩
      · rw [if_neg ht]
        cases hm : m (context_of text) with
        | error e => exact ⟨by simp, by simp⟩
        | ok results =>
          constructor
          · simp only [finalFilter]
            exact List.length_take_le _ _
          · simp only [finalFilter]
            exact (filterFold_pairwise text _ [] [] (by simp) (by simp)).sublist
              (List.take_sublist _ _)
  · rw [if_neg hp]
    exact ⟨by simp, by simp⟩

/-- Claim C3: no suggestion returned by `predict` is a verbatim
substring (contiguous infix) of the buffer text. -/
theorem predict_no_substring (gen : Option Model) (text x : List Char)
    (hx : x ∈ (predict gen text).1) : ¬ x <:+: text :=
  (predict_mem_props gen text x hx).2.1

/-- Witness for C3 at a concrete input: the model proposes "नमस्ते"
after buffer "अ", the suggestion is returned, and it is not a substring
of the buffer. -/
theorem predict_no_substring_witness :
    ¬ ("नमस्ते").toList <:+: ("अ").toList :=
  predict_no_substring (some (fun _ => .ok [("अ नमस्ते").toList])) ("अ").toList
    ("नमस्ते").toList (by decide)

/-- Counterexample to C2 as stated: when the model continues the buffer
"अ" with the Devanagari-digit token "१२", `predict` returns that token,
every character of which is a digit — so a returned suggestion can
consist solely of digits and contain no alphabetic character.  The
source's letter test accepts any character of the Devanagari block,
digits included. -/
theorem predict_digit_counterexample :
    (predict (some (fun _ => .ok [("अ १२").toList])) ("अ").toList).1 = [("१२").toList] ∧
    (("१२").toList).all isClaimDigit = true := by
  constructor
  · decide
  · decide

/-- Claim C2 (amended): every suggestion returned by `predict` has
length at least two and contains at least one character that is a Latin
letter or lies in the Devanagari Unicode block — the block, not just its
letters, so a suggestion consisting solely of Devanagari digits can be
returned. -/
theorem predict_len_and_letter (gen : Option Model) (text x : List Char)
    (hx : x ∈ (predict gen text).1) :
    2 ≤ x.length ∧ hasLetter x = true :=
  ⟨(predict_mem_props gen text x hx).1, (predict_mem_props gen text x hx).2.2⟩

/-- Witness for the amended C2 at a concrete input. -/
theorem predict_len_and_letter_witness :
    2 ≤ (("नमस्ते").toList).length ∧ hasLetter (("नमस्ते").toList) = true :=
  predict_len_and_letter (some (fun _ => .ok [("अ नमस्ते").toList])) ("अ").toList
    ("नमस्ते").toList (by decide)

/-- Claim C4: for every buffer that is empty or whitespace-only, and for
every buffer whose trimmed form ends with one of the terminators
`।`, `.`, `!`, `?`, `predict` returns the empty sequence with no failure
report; the result is the same for every model handle `gen`, so the
generative model is never consulted. -/
theorem predict_early_exit (gen : Option Model) (b : List Char)
    (h : (∀ c ∈ b, isWS c = true) ∨ endsWithTerminator (pyStrip b) = true) :
    predict gen b = ([], 0) := by
  have hsp : should_predict b = false := by
    rcases h with h | h
    · have hs : pyStrip b = [] := pyStrip_eq_nil b h
      unfold should_predict
      rw [if_pos (Or.inr (by rw [hs]; simp))]
    · unfold should_predict
      by_cases h1 : b = [] ∨ (pyStrip b).length < 1
      · rw [if_pos h1]
      · rw [if_neg h1, if_pos h]
  unfold predict
  rw [if_neg]
  intro hc
  rw [hsp] at hc
  exact Bool.false_ne_true hc.1

/-- Witness for C4: a terminator-ended buffer and a whitespace-only
buffer both short-circuit to the empty output even though the model
would offer a continuation. -/
theorem predict_early_exit_witness :
    predict (some (fun _ => .ok [("क ख").toList])) ("नमस्ते।").toList = ([], 0) ∧
    predict (some (fun _ => .ok [("क ख").toList])) ("   ").toList = ([], 0) :=
  ⟨predict_early_exit _ _ (Or.inr (by decide)),
   predict_early_exit _ _ (Or.inl (by decide))⟩

/-- Counterexample to C5 as stated: for the buffer "आज  " (two trailing
spaces), which ends with whitespace, the handler produces the trimmed
buffer plus a single space plus the suggestion, not `b + s` as the claim
says for that case — the handler strips the buffer before testing for a
trailing space, so the separator-free branch never fires. -/
theorem accept_ws_counterexample :
    accept ("आज  ").toList ("अच्छा").toList = ("आज अच्छा").toList ∧
    specAccept ("आज  ").toList ("अच्छा").toList = ("आज  अच्छा").toList ∧
    accept ("आज  ").toList ("अच्छा").toList ≠
      specAccept ("आज  ").toList ("अच्छा").toList := by
  refine ⟨by decide, by decide, by decide⟩

/-- Claim C5 (amended): the acceptance handler returns `s` when the
buffer trims to empty, and otherwise returns the trimmed buffer followed
by a single space and `s`; the trailing-whitespace test is performed on
the already-trimmed buffer and never succeeds.  The three concrete
examples of the claim all hold. -/
theorem accept_characterization :
    (∀ b s : List Char,
      accept b s = if pyStrip b = [] then s else pyStrip b ++ ' ' :: s) ∧
    accept [] ("नमस्ते").toList = ("नमस्ते").toList ∧
    accept ("आज ").toList ("अच्छा").toList = ("आज अच्छा").toList ∧
    accept ("आज").toList ("अच्छा").toList = ("आज अच्छा").toList := by
  refine ⟨?_, by decide, by decide, by decide⟩
  intro b s
  by_cases h : pyStrip b = []
  · simp only [accept, if_pos h]
  · have hlast : ¬ (pyStrip b).getLast? = some ' ' := by
      obtain ⟨d, hd, hws⟩ := pyStrip_getLast_not_ws b h
      rw [hd]
      intro hc
      have hd' : d = ' ' := Option.some.inj hc
      rw [hd'] at hws
      exact absurd hws (by decide)
    simp only [accept, if_neg h, if_neg hlast]

/-- Claim C6: the context sent to the model is the last six whitespace
tokens joined by single spaces when the buffer has more than six tokens,
and the full trimmed buffer otherwise; on the seven-token example buffer
it is exactly the last six tokens. -/
theorem context_windowing :
    (∀ b : List Char, context_of b = specContext b) ∧
    context_of ("एक दो तीन चार पांच छह सात").toList =
      ("दो तीन चार पांच छह सात").toList := by
  refine ⟨?_, by decide⟩
  intro b
  unfold context_of specContext
  rw [pySplit_pyStrip]

/-- Counterexample to C7 as stated: two continuations that both extract
the token "अच्छा" leave a duplicate in the intermediate candidate list,
whereas the claimed cross-continuation case-insensitive dedup would keep
only the first occurrence.  Deduplication in the code happens only
within a single continuation (exact match) and in the final filter. -/
theorem aggregation_counterexample :
    all_suggestions_of [("क अच्छा").toList, ("क अच्छा").toList] ("क").toList =
      [("अच्छा").toList, ("अच्छा").toList] ∧
    specAggregate [("क अच्छा").toList, ("क अच्छा").toList] ("क").toList =
      [("अच्छा").toList] ∧
    all_suggestions_of [("क अच्छा").toList, ("क अच्छा").toList] ("क").toList ≠
      specAggregate [("क अच्छा").toList, ("क अच्छा").toList] ("क").toList := by
  refine ⟨by decide, by decide, by decide⟩

/-- Claim C7 (amended): the intermediate candidate list equals the
concatenation, in continuation order, of the per-continuation token
lists, where within one continuation a cleaned token is kept only if
nonempty and not already exactly present among that continuation's kept
tokens, at most four per continuation; duplicates across continuations
remain, case-insensitive dedup being deferred to the final filter. -/
theorem intermediate_is_concatenation (results : List (List Char)) (context : List Char) :
    all_suggestions_of results context = specIntermediate results context := by
  unfold all_suggestions_of specIntermediate
  congr 1
  apply List.map_congr_left
  intro r _
  unfold extract_suggestions
  by_cases h1 : r = [] ∨ r.length ≤ context.length
  · rw [if_pos h1]
    have hd : r.drop context.length = [] := by
      rcases h1 with h | h
      · rw [h]; exact List.drop_nil
      · exact List.drop_eq_nil_of_le h
    rw [hd]
    rfl
  · rw [if_neg h1]
    by_cases h2 : pyStrip (r.drop context.length) = []
    · rw [if_pos h2]
      have hs : pySplit (r.drop context.length) = [] := by
        rw [← pySplit_pyStrip, h2]
        rfl
      rw [hs]
      rfl
    · rw [if_neg h2, pySplit_pyStrip]
      rfl

/-- Claim C8: when the model handle is present, prediction is not
suppressed, and the generation call raises, `predict` returns the empty
suggestion list and surfaces the failure exactly once; the embedding is
a total function, so no exception reaches the caller. -/
theorem predict_model_error (m : Model) (text : List Char)
    (h1 : should_predict text = true)
    (h2 : m (context_of text) = .error ()) :
    predict (some m) text = ([], 1) := by
  unfold predict
  rw [if_pos ⟨h1, rfl⟩]
  simp only [generate_predictions]
  have ht : text ≠ [] := by
    intro h
    rw [h] at h1
    exact absurd h1 (by decide)
  rw [if_neg ht, h2]

/-- Witness for C8: a model that always raises yields empty output and
one failure report on the buffer "क". -/
theorem predict_model_error_witness :
    predict (some (fun _ => .error ())) ("क").toList = ([], 1) :=
  predict_model_error (fun _ => .error ()) ("क").toList (by decide) rfl

/-- Claim C9: the cleaning and extraction functions are total (they are
plain functions of the embedding); cleaning the empty string yields the
empty string, and extraction yields the empty list whenever the
generated text is not longer than the original or the remainder after
the context strips to empty. -/
theorem cleaning_total :
    clean_suggestion [] = [] ∧
    (∀ g o : List Char, g.length ≤ o.length → extract_suggestions g o = []) ∧
    (∀ g o : List Char, pyStrip (g.drop o.length) = [] → extract_suggestions g o = []) := by
  refine ⟨rfl, ?_, ?_⟩
  · intro g o h
    unfold extract_suggestions
    rw [if_pos (Or.inr h)]
  · intro g o h
    unfold extract_suggestions
    by_cases h1 : g = [] ∨ g.length ≤ o.length
    · rw [if_pos h1]
    · rw [if_neg h1, if_pos h]

/-- Witness for C9: a generated text no longer than the original, and a
generated text whose remainder strips to empty, both extract nothing. -/
theorem cleaning_total_witness :
    extract_suggestions ("अ").toList ("अब").toList = [] ∧
    extract_suggestions ("अब ").toList ("अब").toList = [] :=
  ⟨cleaning_total.2.1 _ _ (by decide), cleaning_total.2.2 _ _ (by decide)⟩

theorem dropWhile_eq_self (p : Char → Bool) (r : List Char)
    (h : ∀ c rest, r = c :: rest → p c = false) : r.dropWhile p = r := by
  cases r with
  | nil => rfl
  | cons c rest => exact dropWhile_cons_self p c rest (h c rest rfl)

theorem rdrop_eq_self (p : Char → Bool) (r : List Char) (hne : r ≠ [])
    (h : ∀ d, r.getLast? = some d → p d = false) : rdrop p r = r := by
  unfold rdrop
  have hrne2 : r.reverse ≠ [] := by simpa using hne
  obtain ⟨d', rest', hd'⟩ := List.exists_cons_of_ne_nil hrne2
  have hgl : r.getLast? = some d' := by
    rw [← List.head?_reverse, hd']
    rfl
  rw [hd', dropWhile_cons_self p d' rest' (h d' hgl), ← hd', List.reverse_reverse]

theorem stripPunct_head_keepLead (l : List Char) (c : Char) (rest : List Char)
    (h : stripPunct l = c :: rest) : keepLead c = true := by
  have h1 := rdrop_head_false (fun x => !keepTrail x) (fun x => !keepLead x) l c rest h
  simpa using h1

theorem stripPunct_last_keepTrail (l : List Char) (h : stripPunct l ≠ []) :
    ∃ d, (stripPunct l).getLast? = some d ∧ keepTrail d = true := by
  obtain ⟨d, hd, hdf⟩ :=
    rdrop_getLast_false (fun x => !keepTrail x)
      (l.dropWhile (fun x => !keepLead x)) h
  refine ⟨d, hd, ?_⟩
  simpa using hdf

theorem clean_suggestion_fixed (r : List Char) (hne : r ≠ [])
    (hstrip : pyStrip r = r) (hpunct : stripPunct r = r)
    (hL : hasLetter r = true) (hlen : ¬ r.length < 2) : clean_suggestion r = r := by
  unfold clean_suggestion
  rw [hstrip, hpunct, if_neg hne, if_neg (by simpa using hL), if_neg hlen]

/-- Claim C10: `clean_suggestion` is idempotent — a token that survives
cleaning is returned unchanged by a second cleaning, and a discarded
token's empty result cleans to empty. -/
theorem clean_suggestion_idempotent (t : List Char) :
    clean_suggestion (clean_suggestion t) = clean_suggestion t := by
  by_cases h : clean_suggestion t = []
  · rw [h]
    rfl
  · obtain ⟨he, hL, hlen⟩ := clean_suggestion_spec t h
    obtain ⟨c, rest, hcons⟩ := List.exists_cons_of_ne_nil h
    have hhead : keepLead c = true := by
      apply stripPunct_head_keepLead (pyStrip t) c rest
      rw [← he, hcons]
    obtain ⟨d, hd, hdk⟩ := stripPunct_last_keepTrail (pyStrip t) (by rw [← he]; exact h)
    rw [← he] at hd
    have hL' : hasLetter (clean_suggestion t) = true := by rw [he]; exact hL
    have hlen' : ¬ (clean_suggestion t).length < 2 := by
      rw [he]
      exact Nat.not_lt.mpr hlen
    have hstrip : pyStrip (clean_suggestion t) = clean_suggestion t := by
      unfold pyStrip
      rw [dropWhile_eq_self isWS (clean_suggestion t) ?hh]
      case hh =>
        intro c' rest' hc'
        rw [hcons] at hc'
        injection hc' with h1 _
        rw [← h1]
        exact keepLead_not_ws c hhead
      apply rdrop_eq_self isWS (clean_suggestion t) h
      intro d' hd'
      rw [hd] at hd'
      have hdd : d = d' := Option.some.inj hd'
      rw [← hdd]
      exact keepTrail_not_ws d hdk
    have hpunct : stripPunct (clean_suggestion t) = clean_suggestion t := by
      unfold stripPunct
      rw [dropWhile_eq_self (fun x => !keepLead x) (clean_suggestion t) ?hh]
      case hh =>
        intro c' rest' hc'
        rw [hcons] at hc'
        injection hc' with h1 _
        rw [← h1]
        simp [hhead]
      apply rdrop_eq_self (fun x => !keepTrail x) (clean_suggestion t) h
      intro d' hd'
      rw [hd] at hd'
      have hdd : d = d' := Option.some.inj hd'
      rw [← hdd]
      simp [hdk]
    exact clean_suggestion_fixed (clean_suggestion t) h hstrip hpunct hL' hlen'

end Trial
